import Mathlib

/-!
Verification of the recc client sources (path utilities, gRPC retry driver,
remote execution client, environment parsing).

Paths are modelled as Lean `String`s; the core path algorithms operate on the
underlying `List Char`, mirroring the character loops of `fileutils.cpp`.
C-string character access `s[i]` (which yields the NUL terminator at the end
of the string) is modelled by `charAt`, which returns `Char.ofNat 0` past the
end of the list.
-/

set_option autoImplicit false

/-- The NUL character, the value C-string indexing yields at (and past) the
end of a string. -/
def nulChar : Char := Char.ofNat 0

/-- `charAt cs i` models C-style character access `s[i]` on a string whose
characters are `cs`: reads past the last character yield NUL. -/
def charAt (cs : List Char) (i : Nat) : Char := cs.getD i nulChar

/-- Split a character list on '/' (the `strchr`-driven segment loop of
`FileUtils::normalize_path`).  The source loop does not emit a final empty
segment for a trailing slash; this version does, but that segment is empty
and is discarded by `normStep` exactly like the empty segments produced by
repeated slashes, so the two formulations agree. -/
def splitSlash : List Char → List (List Char)
  | [] => [[]]
  | c :: rest =>
    if c = '/' then [] :: splitSlash rest
    else
      match splitSlash rest with
      | [] => [[c]]
      | s :: ss => (c :: s) :: ss

/-- One iteration of the segment-processing loop of
`FileUtils::normalize_path` (fileutils.cpp:220-225): a ".." segment pops the
last collected segment unless the stack is empty or already ends in "..";
"." and empty segments are dropped; everything else is pushed. -/
def normStep (acc : List (List Char)) (seg : List Char) : List (List Char) :=
  if seg = ['.', '.'] ∧ acc ≠ [] ∧ acc.getLast? ≠ some ['.', '.'] then acc.dropLast
  else if seg ≠ ['.'] ∧ seg ≠ [] then acc ++ [seg]
  else acc

/-- The full segment-processing loop of `FileUtils::normalize_path`. -/
def normSegs (segs : List (List Char)) : List (List Char) :=
  segs.foldl normStep []

/-- Join segments with single slashes (the result-building loop of
`FileUtils::normalize_path`, which appends `segment + "/"` for every segment
and then pops the trailing slash). -/
def joinSegs : List (List Char) → List Char
  | [] => []
  | [s] => s
  | s :: s2 :: rest => s ++ '/' :: joinSegs (s2 :: rest)

/-- `FileUtils::normalize_path` (fileutils.cpp:203-243) on character lists. -/
def normalizePathChars (cs : List Char) : List Char :=
  (if charAt cs 0 = '/' then ['/'] else []) ++ joinSegs (normSegs (splitSlash cs))

/-- `FileUtils::normalize_path` (fileutils.cpp:203-243). -/
def normalize_path (p : String) : String :=
  ⟨normalizePathChars p.data⟩

/-- `FileUtils::has_path_prefix` (fileutils.cpp:245-264) on character lists.
The second argument plays the role of the `prefix` parameter (taken by value
and possibly extended with a trailing slash before the comparison). -/
def hasPathPrefixChars (path pfx : List Char) : Bool :=
  if pfx = [] then false
  else if path = pfx then true
  else
    let pfx2 := if pfx.getLast? ≠ some '/' then pfx ++ ['/'] else pfx
    path.take pfx2.length = pfx2

/-- `FileUtils::has_path_prefix` (fileutils.cpp:245-264). -/
def hasPathPrefix (path pfx : String) : Bool :=
  hasPathPrefixChars path.data pfx.data

/-- The slash-counting loop of `FileUtils::make_path_relative`
(fileutils.cpp:315-321): counts the separators remaining in the working
directory, ignoring a trailing slash. -/
def countSlashNontrailing (wd : List Char) (i : Nat) : Nat :=
  if h : charAt wd i ≠ nulChar then
    (if charAt wd i = '/' ∧ charAt wd (i + 1) ≠ nulChar then 1 else 0) +
      countSlashNontrailing wd (i + 1)
  else 0
termination_by wd.length - i
decreasing_by
  have hi : i < wd.length := by
    by_contra hge
    exact h (by simp [charAt, List.getD,
      List.getElem?_eq_none (Nat.le_of_not_lt hge)])
  exact Nat.sub_lt_sub_left hi (Nat.lt_succ_self i)

/-- `"../"` repeated `n - 1` times followed by `".."`.  This is the result of
`path.replace(0, lastMatchingSegmentEnd, n*3 - 1, '.')` followed by the loop
that overwrites every third dot with '/' (fileutils.cpp:323-328). -/
def dotsPattern : Nat → List Char
  | 0 => []
  | 1 => ['.', '.']
  | n + 2 => '.' :: '.' :: '/' :: dotsPattern (n + 1)

/-- The tail of `FileUtils::make_path_relative` (fileutils.cpp:315-329):
count the `..` levels needed and splice them in front of the unmatched part
of the path. -/
def relFinish (path wd : List Char) (i lastEnd : Nat) : List Char :=
  dotsPattern (1 + countSlashNontrailing wd i) ++ path.drop lastEnd

/-- The post-loop adjustment of `FileUtils::make_path_relative`
(fileutils.cpp:304-313): the case in which the path is a proper prefix of the
working directory. -/
def relAfter (path wd : List Char) (i lastEnd : Nat) : List Char :=
  if i = path.length ∧ charAt wd i = '/' then
    if charAt wd (i + 1) = nulChar then ['.']
    else relFinish path wd (i + 1) i
  else relFinish path wd i lastEnd

/-- The matching loop of `FileUtils::make_path_relative`
(fileutils.cpp:279-302), compared character by character against the working
directory, including the early returns taken when the working directory is
exhausted (`workingDirectory[i+1] == 0`). -/
def relLoop (path wd : List Char) (i lastEnd : Nat) : List Char :=
  if h : i < path.length ∧ charAt path i = charAt wd i then
    if charAt wd (i + 1) = nulChar then
      if path.length = i + 1 then (if charAt path i = '/' then ['.', '/'] else ['.'])
      else if path.length = i + 2 ∧ charAt path (i + 1) = '/' then ['.', '/']
      else if charAt path i = '/' then path.drop (i + 1)
      else if charAt path (i + 1) = '/' then path.drop (i + 2)
      else relLoop path wd (i + 1) lastEnd
    else if charAt path i = '/' then relLoop path wd (i + 1) i
    else relLoop path wd (i + 1) lastEnd
  else relAfter path wd i lastEnd
termination_by path.length - i
decreasing_by
  · exact Nat.sub_lt_sub_left h.1 (Nat.lt_succ_self i)
  · exact Nat.sub_lt_sub_left h.1 (Nat.lt_succ_self i)
  · exact Nat.sub_lt_sub_left h.1 (Nat.lt_succ_self i)

/-- `FileUtils::make_path_relative` (fileutils.cpp:266-330).  The global
`RECC_PROJECT_ROOT` is passed explicitly as `root`.  The source throws
`std::logic_error` for a non-absolute working directory; that exit is
modelled by `Except.error`. -/
def make_path_relative (path cwd root : String) : Except String String :=
  if cwd.data = [] ∨ path.data = [] ∨ charAt path.data 0 ≠ '/' ∨
      hasPathPrefix path root = false then
    .ok path
  else if charAt cwd.data 0 ≠ '/' then
    .error "Working directory must be null or an absolute path"
  else
    .ok ⟨relLoop path.data cwd.data 0 0⟩

/-- `FileUtils::make_path_absolute` (fileutils.cpp:332-348).  The source
binds `normalizedPath` once and possibly appends the trailing slash the
normalization dropped; the pure normalization call is written out twice
here. -/
def make_path_absolute (path cwd : String) : String :=
  if path.data = [] ∨ charAt path.data 0 = '/' then path
  else if path.data.getLast? = some '/' ∧
      (normalize_path (cwd ++ "/" ++ path)).data.getLast? ≠ some '/' then
    ⟨(normalize_path (cwd ++ "/" ++ path)).data ++ ['/']⟩
  else normalize_path (cwd ++ "/" ++ path)

/-- One step of the emptiness check used to express "`p` stays inside the
directory it is resolved against": the fold of `normStep` starting from the
empty stack never meets a ".." segment on an empty stack (so resolving `p`
never escapes upward). -/
def staysSegs : List (List Char) → List (List Char) → Bool
  | _, [] => true
  | acc, s :: rest =>
    if s = ['.', '.'] ∧ acc = [] then false
    else staysSegs (normStep acc s) rest

/-- `p` never escapes above its starting directory during textual
normalization. -/
def staysInside (p : String) : Bool :=
  staysSegs [] (splitSlash p.data)

/-! ## gRPC status and the retry driver (`grpcretry.cpp`) -/

/-- A gRPC status: an integer code (0 is OK, 5 is NOT_FOUND, 16 is
UNAUTHENTICATED) and an error message. -/
structure GStatus where
  code : Nat
  msg : String
deriving DecidableEq, Repr

/-- `grpc::StatusCode::NOT_FOUND`. -/
def NOT_FOUND : Nat := 5

/-- `grpc::StatusCode::UNAUTHENTICATED` (the `NO_AUTH` local of
`grpc_retry`). -/
def UNAUTHENTICATED : Nat := 16

/-- How a `grpc_retry` call ends: normal return, or the
`std::runtime_error` thrown after exhaustion. -/
inductive RetryOutcome where
  | ok : RetryOutcome
  | failed : String → RetryOutcome
deriving DecidableEq, Repr

/-- Observable result of one `grpc_retry` call: how many times the wrapped
RPC ran, the sleeps performed between attempts (in milliseconds), how many
times `GrpcContext::auth_refresh` was called, and the outcome. -/
structure RetryResult where
  invocations : Nat
  sleeps : List Nat
  authRefreshCalls : Nat
  outcome : RetryOutcome
deriving DecidableEq, Repr

/-- The error message built after the retry loop exhausts
(grpcretry.cpp:71-77): `"<code>: <msg>"`, prefixed with
`"Retry limit exceeded. Last gRPC error was "` only when
`RECC_RETRY_LIMIT > 0`. -/
def retryErrorMessage (limit : Nat) (st : GStatus) : String :=
  (if 0 < limit then "Retry limit exceeded. Last gRPC error was " else "") ++
    toString st.code ++ ": " ++ st.msg

/-- The do/while loop of `grpc_retry` (grpcretry.cpp:38-69).  `f i` is the
status returned by the `i`-th invocation of the wrapped RPC (0-based);
`limit` and `delay` are `RECC_RETRY_LIMIT` and `RECC_RETRY_DELAY` (the
non-negative configurations).  `nAttempts`/`refreshed` are the loop locals,
`inv`/`sleeps` accumulate the observable behavior.  The UNAUTHENTICATED
branch (grpcretry.cpp:44-46) only sets `refreshed`; it performs no call to
`GrpcContext::auth_refresh`, so `authRefreshCalls` is never incremented.
The sleep `RECC_RETRY_DELAY * pow(2, n_attempts)` is computed here in exact
integer arithmetic. -/
def grpcRetryGo (f : Nat → GStatus) (limit delay nAttempts : Nat)
    (refreshed : Bool) (inv : Nat) (sleeps : List Nat) : RetryResult :=
  if (f inv).code = 0 then
    { invocations := inv + 1, sleeps := sleeps, authRefreshCalls := 0,
      outcome := .ok }
  else if hu : (f inv).code = UNAUTHENTICATED ∧ refreshed = false then
    if nAttempts < limit + 1 then
      grpcRetryGo f limit delay nAttempts true (inv + 1) sleeps
    else
      { invocations := inv + 1, sleeps := sleeps, authRefreshCalls := 0,
        outcome := .failed (retryErrorMessage limit (f inv)) }
  else
    if _hn : nAttempts + 1 < limit + 1 then
      grpcRetryGo f limit delay (nAttempts + 1) refreshed (inv + 1)
        (if nAttempts < limit then sleeps ++ [delay * 2 ^ nAttempts] else sleeps)
    else
      { invocations := inv + 1,
        sleeps := if nAttempts < limit then sleeps ++ [delay * 2 ^ nAttempts] else sleeps,
        authRefreshCalls := 0,
        outcome := .failed (retryErrorMessage limit (f inv)) }
termination_by 2 * (limit + 1 - nAttempts) + (1 - refreshed.toNat)
decreasing_by
  · obtain ⟨-, h2⟩ := hu
    subst h2
    simp only [Bool.toNat_true, Bool.toNat_false]
    omega
  · omega

/-- `grpc_retry` (grpcretry.cpp:29-80), observationally: loop locals start
at `n_attempts = 0`, `refreshed = false`. -/
def grpc_retry (f : Nat → GStatus) (limit delay : Nat) : RetryResult :=
  grpcRetryGo f limit delay 0 false 0 []

/-- `GrpcContext::auth_refresh` (grpccontext.cpp:45-53): refreshes the
current token when an AuthSession is set and throws otherwise.  (Within the
repository this function has no caller.) -/
def GrpcContext_auth_refresh (hasAuthSession : Bool) : Except String Unit :=
  if hasAuthSession then .ok () else .error "An AuthSession was not set"

/-! ## Remote execution client (`remoteexecutionclient.cpp`) -/

/-- A content digest: hex hash and byte size. -/
structure Digest where
  hash : String
  sizeBytes : Nat
deriving DecidableEq, Repr

/-- `proto::OutputFile`: the fields read by `from_proto`. -/
structure OutputFileP where
  path : String
  digest : Digest
  isExecutable : Bool
deriving DecidableEq, Repr

/-- `proto::OutputDirectory`: the fields read by `from_proto`. -/
structure OutputDirP where
  path : String
  treeDigest : Digest
deriving DecidableEq, Repr

/-- A file entry of a `proto::Directory`. -/
structure FileNodeP where
  name : String
  digest : Digest
  isExecutable : Bool
deriving DecidableEq, Repr

/-- A subdirectory entry of a `proto::Directory`. -/
structure DirNodeP where
  name : String
  digest : Digest
deriving DecidableEq, Repr

/-- `proto::Directory`: the fields read by `add_from_directory`. -/
structure DirectoryP where
  files : List FileNodeP
  directories : List DirNodeP
deriving DecidableEq, Repr

/-- `proto::Tree`: a root directory plus its transitive children. -/
structure TreeP where
  root : DirectoryP
  children : List DirectoryP
deriving DecidableEq, Repr

/-- `proto::ActionResult`: the fields read by `from_proto`. -/
structure ActionResultProto where
  exitCode : Int
  stdoutRaw : String
  stdoutDigest : Digest
  stderrRaw : String
  stderrDigest : Digest
  outputFiles : List OutputFileP
  outputDirectories : List OutputDirP
deriving DecidableEq, Repr

/-- `proto::ExecuteResponse`: status, message and contained ActionResult. -/
structure ExecuteResponse where
  status : GStatus
  message : String
  result : ActionResultProto
deriving DecidableEq, Repr

/-- `google.protobuf.Any` as far as the client inspects it: either unset,
a packed `ExecuteResponse`, or a message of some other type. -/
inductive AnyMsg where
  | empty : AnyMsg
  | executeResponse : ExecuteResponse → AnyMsg
  | other : AnyMsg
deriving DecidableEq, Repr

/-- The `result` oneof of `google.longrunning.Operation`: unset, an error
status, or a packed response. -/
inductive OpResult where
  | unset : OpResult
  | error : GStatus → OpResult
  | response : AnyMsg → OpResult
deriving DecidableEq, Repr

/-- `google.longrunning.Operation`: the fields the client reads. -/
structure Operation where
  name : String
  done : Bool
  result : OpResult
deriving DecidableEq, Repr

/-- `operation.has_error()`. -/
def Operation.hasError (op : Operation) : Bool :=
  match op.result with
  | .error _ => true
  | _ => false

/-- `operation.error()`: the error status, or the default (OK, "") status
when the oneof does not hold an error. -/
def Operation.errorStatus (op : Operation) : GStatus :=
  match op.result with
  | .error st => st
  | _ => ⟨0, ""⟩

/-- `operation.response()`: the packed Any, or the default (unset) Any when
the oneof does not hold a response. -/
def Operation.responseAny (op : Operation) : AnyMsg :=
  match op.result with
  | .response a => a
  | _ => .empty

/-- `any.UnpackTo(&executeResponse)` / `any.Is<proto::ExecuteResponse>()`:
unpacking succeeds exactly when the Any holds an `ExecuteResponse`. -/
def unpackExecuteResponse : AnyMsg → Option ExecuteResponse
  | .executeResponse er => some er
  | _ => none

/-- Modelled from the spec: `ensure_ok` (declared in a header that is not
under src/; only its call sites in `remoteexecutionclient.cpp` are visible)
raises an error for a non-OK status — "if its status is non-OK → error" —
and returns normally on OK. -/
def ensure_ok (st : GStatus) : Except String Unit :=
  if st.code = 0 then .ok ()
  else .error ("Error status " ++ toString st.code ++ ": " ++ st.msg)

/-- True exactly on `Except.error`. -/
def isErr {ε α : Type} : Except ε α → Bool
  | .error _ => true
  | .ok _ => false

/-- `get_actionresult` (remoteexecutionclient.cpp:90-120).  Note the
else-if chain: when the Operation carries an error whose status is OK,
`ensure_ok` returns and control falls through to the `UnpackTo` of the
(unset) response. -/
def get_actionresult (op : Operation) : Except String ActionResultProto :=
  if op.done = false then
    .error "Called get_actionresult on an unfinished Operation"
  else
    (if op.hasError then ensure_ok op.errorStatus
     else if (unpackExecuteResponse op.responseAny).isSome then .ok ()
     else .error "Server returned invalid Operation result").bind fun _ =>
    match unpackExecuteResponse op.responseAny with
    | none => .error "Operation response unpacking failed"
    | some er => (ensure_ok er.status).bind fun _ => .ok er.result

/-- Insert-or-overwrite into the `FileInfoMap`
(`std::unordered_map::operator[]`), modelled as an association list. -/
def mapSet (m : List (String × Digest × Bool)) (k : String) (v : Digest × Bool) :
    List (String × Digest × Bool) :=
  match m with
  | [] => [(k, v)]
  | (k2, v2) :: rest => if k2 = k then (k, v) :: rest else (k2, v2) :: mapSet rest k v

/-- Insert-or-overwrite into the digest map of `from_proto`. -/
def dmSet (m : List (Digest × DirectoryP)) (k : Digest) (v : DirectoryP) :
    List (Digest × DirectoryP) :=
  match m with
  | [] => [(k, v)]
  | (k2, v2) :: rest => if k2 = k then (k, v) :: rest else (k2, v2) :: dmSet rest k v

/-- `digestMap.at(...)` lookup. -/
def dmLookup : List (Digest × DirectoryP) → Digest → Option DirectoryP
  | [], _ => none
  | (k, v) :: rest, key => if k = key then some v else dmLookup rest key

/-- `add_from_directory` (remoteexecutionclient.cpp:47-64).  The C++
recursion is bounded only by the acyclicity of the digest map; the `fuel`
parameter makes the traversal total, and callers pass fuel exceeding the
recursion depth of any acyclic map.  A missing digest
(`std::unordered_map::at` throwing) is modelled as an error. -/
def add_from_directory (digestMap : List (Digest × DirectoryP)) :
    Nat → List (String × Digest × Bool) → DirectoryP → String →
    Except String (List (String × Digest × Bool))
  | 0, _, _, _ => .error "directory tree recursion limit exceeded"
  | fuel + 1, outputFiles, dir, pfx =>
    let withFiles := dir.files.foldl
      (fun m f => mapSet m (pfx ++ f.name) (f.digest, f.isExecutable)) outputFiles
    dir.directories.foldlM
      (fun m d =>
        match dmLookup digestMap d.digest with
        | some sub => add_from_directory digestMap fuel m sub (pfx ++ d.name ++ "/")
        | none => .error "digest missing from tree") withFiles

/-- `OutputBlob` as constructed by `from_proto`: raw bytes plus digest. -/
structure OutputBlob where
  raw : String
  digest : Digest
deriving DecidableEq, Repr

/-- The client-side `ActionResult` as populated by
`RemoteExecutionClient::from_proto`. -/
structure ActionResult where
  d_exitCode : Int
  d_stdOut : OutputBlob
  d_stdErr : OutputBlob
  d_outputFiles : List (String × Digest × Bool)
deriving DecidableEq, Repr

/-- `RemoteExecutionClient::from_proto` (remoteexecutionclient.cpp:268-298).
`fetchTree` stands for `fetch_message<proto::Tree>` (the CAS fetch, assumed
to deliver the Tree for the requested digest) and `makeDigest` for
`make_digest` on a serialized Directory; both live in headers outside
src/. -/
def from_proto (fetchTree : Digest → TreeP) (makeDigest : DirectoryP → Digest)
    (p : ActionResultProto) : Except String ActionResult :=
  (p.outputDirectories.foldlM
    (fun m od =>
      let tree := fetchTree od.treeDigest
      let digestMap := tree.children.foldl
        (fun dm child => dmSet dm (makeDigest child) child) []
      add_from_directory digestMap (tree.children.length + 1) m tree.root
        (od.path ++ "/"))
    (p.outputFiles.foldl
      (fun m f => mapSet m f.path (f.digest, f.isExecutable)) [])).map
  fun files =>
    { d_exitCode := p.exitCode,
      d_stdOut := ⟨p.stdoutRaw, p.stdoutDigest⟩,
      d_stdErr := ⟨p.stderrRaw, p.stderrDigest⟩,
      d_outputFiles := files }

/-- `RemoteExecutionClient::fetch_from_action_cache`
(remoteexecutionclient.cpp:161-189), parameterized by the status and proto
returned by the `GetActionResult` RPC.  `Except.ok none` models the
`return false` cache-miss exit, `Except.ok (some r)` the `return true` exit
with `*result` filled in. -/
def fetch_from_action_cache (fetchTree : Digest → TreeP)
    (makeDigest : DirectoryP → Digest) (st : GStatus)
    (actionResult : ActionResultProto) : Except String (Option ActionResult) :=
  if st.code ≠ 0 then
    if st.code = NOT_FOUND then .ok none
    else .error ("Action cache returned error " ++ st.msg)
  else
    (from_proto fetchTree makeDigest actionResult).map some

/-- The tail of `RemoteExecutionClient::execute_action`
(remoteexecutionclient.cpp:219-226): after `grpc_retry` returns, a final
Operation that is not done is an error; otherwise the ActionResult is
extracted and converted via `from_proto`. -/
def execute_action_tail (fetchTree : Digest → TreeP)
    (makeDigest : DirectoryP → Digest) (op : Operation) :
    Except String ActionResult :=
  if op.done = false then
    .error "Server closed stream before Operation finished"
  else
    (get_actionresult op).bind (from_proto fetchTree makeDigest)

/-- `RemoteExecutionClient::cancel_operation`
(remoteexecutionclient.cpp:229-249), given the status returned by the
`CancelOperation` RPC: a log line is produced and the function returns
normally for every status (errors are reported, not propagated). -/
def cancel_operation_log (operationName : String) (st : GStatus) : String :=
  if st.code ≠ 0 then
    "Failed to cancel job " ++ operationName ++ ": " ++ st.msg
  else
    "Cancelled job " ++ operationName

/-- Outcome of one poll iteration of `RemoteExecutionClient::read_operation`
(remoteexecutionclient.cpp:146-158). -/
structure SigintOutcome where
  cancelRequested : Option String
  cancelLog : Option String
  exitCode : Option Nat
deriving DecidableEq, Repr

/-- One iteration of the poll loop in `read_operation`
(remoteexecutionclient.cpp:146-158): if the SIGINT flag is set,
`CancelOperation` is issued for a non-empty operation name (on a context
freshly created by `cancel_operation`) and the process exits with code 130
whatever status the cancellation RPC returned; otherwise polling
continues.  `cancelStatus` is the status the `CancelOperation` RPC would
return. -/
def read_operation_poll (sigintReceived : Bool) (operationName : String)
    (cancelStatus : GStatus) : SigintOutcome :=
  if sigintReceived then
    if operationName = "" then
      { cancelRequested := none, cancelLog := none, exitCode := some 130 }
    else
      { cancelRequested := some operationName,
        cancelLog := some (cancel_operation_log operationName cancelStatus),
        exitCode := some 130 }
  else
    { cancelRequested := none, cancelLog := none, exitCode := none }

/-! ## Environment parsing (the env translation unit in `grpcretry.cpp`) -/

/-- The guard of the `BOOLVAR(name)` macro (grpcretry.cpp:170-174):
`strncmp(environ[i], #name "=", strlen(#name "=")) == 0`. -/
def boolvarMatches (name entry : List Char) : Bool :=
  List.isPrefixOf (name ++ ['=']) entry

/-- The value stored by the `BOOLVAR(name)` macro (grpcretry.cpp:173):
`strlen(environ[i]) > strlen(#name "=")` — the variable becomes true iff
anything at all follows the equals sign. -/
def boolvarValue (name entry : List Char) : Bool :=
  decide (name.length + 1 < entry.length)

/-! ## Side conditions used to state the claims -/

/-- A well-formed path segment: nonempty and slash-free. -/
def GoodSeg (s : List Char) : Prop := s ≠ [] ∧ '/' ∉ s

/-- A segment of a normalized absolute working directory: well formed,
NUL-free (the working directory is passed as a C string), and not one of the
special segments "." and "..". -/
def CwdSeg (s : List Char) : Prop :=
  GoodSeg s ∧ nulChar ∉ s ∧ s ≠ ['.'] ∧ s ≠ ['.', '.']

instance decGoodSeg (s : List Char) : Decidable (GoodSeg s) :=
  inferInstanceAs (Decidable (s ≠ [] ∧ '/' ∉ s))

instance decCwdSeg (s : List Char) : Decidable (CwdSeg s) :=
  inferInstanceAs (Decidable (GoodSeg s ∧ nulChar ∉ s ∧ s ≠ ['.'] ∧ s ≠ ['.', '.']))

/-! ## Helper lemmas: character access -/

lemma charAt_of_length_le (l : List Char) (i : Nat) (h : l.length ≤ i) :
    charAt l i = nulChar := by
  simp [charAt, List.getD, List.getElem?_eq_none h]

lemma charAt_append_left (l₁ l₂ : List Char) (i : Nat) (h : i < l₁.length) :
    charAt (l₁ ++ l₂) i = charAt l₁ i := by
  simp [charAt, List.getD, List.getElem?_append_left h]

lemma charAt_append_right (l₁ l₂ : List Char) (n : Nat) :
    charAt (l₁ ++ l₂) (l₁.length + n) = charAt l₂ n := by
  simp [charAt, List.getD]
  congr 1
  rw [List.getElem?_append_right (Nat.le_add_right _ _)]
  congr 1
  omega

lemma charAt_cons_zero (c : Char) (l : List Char) : charAt (c :: l) 0 = c := rfl

lemma getLast?_eq_charAt (l : List Char) (h : l ≠ []) :
    l.getLast? = some (charAt l (l.length - 1)) := by
  rw [List.getLast?_eq_getElem? l]
  have hlt : l.length - 1 < l.length := by
    cases l with
    | nil => exact absurd rfl h
    | cons a as => simp
  rw [List.getElem?_eq_getElem hlt]
  simp [charAt, List.getD, List.getElem?_eq_getElem hlt]

lemma charAt_ne_nul (l : List Char) (i : Nat) (hnul : ∀ c ∈ l, c ≠ nulChar)
    (h : i < l.length) : charAt (l : List Char) i ≠ nulChar := by
  have : charAt l i = l[i] := by simp [charAt, List.getD, List.getElem?_eq_getElem h]
  rw [this]
  exact hnul _ (l.getElem_mem h)

/-! ## Helper lemmas: splitting and joining segments -/

lemma splitSlash_ne_nil (cs : List Char) : splitSlash cs ≠ [] := by
  induction cs with
  | nil => simp [splitSlash]
  | cons c rest ih =>
    rw [splitSlash]
    by_cases hc : c = '/'
    · simp [hc]
    · rw [if_neg hc]
      cases h : splitSlash rest with
      | nil => simp
      | cons s ss => simp

lemma splitSlash_no_slash (cs : List Char) : ∀ s ∈ splitSlash cs, '/' ∉ s := by
  induction cs with
  | nil => simp [splitSlash]
  | cons c rest ih =>
    rw [splitSlash]
    by_cases hc : c = '/'
    · rw [if_pos hc]
      intro s hs
      rcases List.mem_cons.mp hs with h | h
      · subst h; simp
      · exact ih s h
    · rw [if_neg hc]
      cases h : splitSlash rest with
      | nil =>
        intro s hs
        rcases List.mem_singleton.mp hs
        intro hmem
        exact hc (List.mem_singleton.mp hmem).symm
      | cons s0 ss =>
        intro s hs
        rcases List.mem_cons.mp hs with h2 | h2
        · subst h2
          intro hmem
          rcases List.mem_cons.mp hmem with h3 | h3
          · exact hc h3.symm
          · exact ih s0 (h ▸ List.mem_cons_self s0 ss) h3
        · exact ih s (h ▸ List.mem_cons_of_mem s0 h2)

lemma splitSlash_of_no_slash (s : List Char) (h : '/' ∉ s) : splitSlash s = [s] := by
  induction s with
  | nil => rfl
  | cons c rest ih =>
    rw [splitSlash]
    have hc : c ≠ '/' := fun he => h (he ▸ List.mem_cons_self c rest)
    rw [if_neg (fun he => hc he)]
    rw [ih (fun hm => h (List.mem_cons_of_mem c hm))]

lemma splitSlash_append (a b : List Char) :
    splitSlash (a ++ '/' :: b) = splitSlash a ++ splitSlash b := by
  induction a with
  | nil => simp [splitSlash]
  | cons c rest ih =>
    by_cases hc : c = '/'
    · subst hc
      simp only [List.cons_append]
      rw [splitSlash, if_pos rfl, ih, splitSlash, if_pos rfl]
      rfl
    · simp only [List.cons_append]
      rw [splitSlash, if_neg hc, ih]
      rw [splitSlash, if_neg hc]
      cases h : splitSlash rest with
      | nil => exact absurd h (splitSlash_ne_nil rest)
      | cons s ss => simp

lemma joinSegs_cons_of_ne_nil (s : List Char) (rest : List (List Char))
    (h : rest ≠ []) : joinSegs (s :: rest) = s ++ '/' :: joinSegs rest := by
  cases rest with
  | nil => exact absurd rfl h
  | cons s2 r2 => rfl

lemma joinSegs_append (xs ys : List (List Char)) (hx : xs ≠ []) (hy : ys ≠ []) :
    joinSegs (xs ++ ys) = joinSegs xs ++ '/' :: joinSegs ys := by
  induction xs with
  | nil => exact absurd rfl hx
  | cons s rest ih =>
    cases rest with
    | nil =>
      rw [List.singleton_append, joinSegs_cons_of_ne_nil s ys hy]
      rfl
    | cons s2 r2 =>
      have hne : (s2 :: r2) ++ ys ≠ [] := by simp
      rw [List.cons_append, joinSegs_cons_of_ne_nil s _ hne,
        ih (by simp), joinSegs_cons_of_ne_nil s (s2 :: r2) (by simp)]
      simp

lemma joinSegs_ne_nil (xs : List (List Char)) (hx : xs ≠ [])
    (hgood : ∀ s ∈ xs, s ≠ []) : joinSegs xs ≠ [] := by
  cases xs with
  | nil => exact absurd rfl hx
  | cons s rest =>
    cases rest with
    | nil => exact hgood s (List.mem_cons_self s [])
    | cons s2 r2 =>
      rw [joinSegs_cons_of_ne_nil s _ (by simp)]
      have : s ≠ [] := hgood s (List.mem_cons_self s _)
      cases s with
      | nil => exact absurd rfl this
      | cons c cs => simp

lemma joinSegs_head_ne_slash (xs : List (List Char)) (hx : xs ≠ [])
    (hgood : ∀ s ∈ xs, s ≠ [] ∧ '/' ∉ s) :
    (joinSegs xs).head? ≠ some '/' := by
  cases xs with
  | nil => exact absurd rfl hx
  | cons s rest =>
    have hs := hgood s (List.mem_cons_self s rest)
    have hhead : (joinSegs (s :: rest)).head? = s.head? := by
      cases rest with
      | nil => rfl
      | cons s2 r2 =>
        rw [joinSegs_cons_of_ne_nil s _ (by simp)]
        cases s with
        | nil => exact absurd rfl hs.1
        | cons c cs => rfl
    rw [hhead]
    cases s with
    | nil => exact absurd rfl hs.1
    | cons c cs =>
      intro hcc
      simp only [List.head?_cons] at hcc
      have hc2 : c = '/' := Option.some.inj hcc
      exact hs.2 (hc2 ▸ List.mem_cons_self c cs)

lemma getLast?_append_of_ne_nil {α : Type} (l₁ l₂ : List α) (h : l₂ ≠ []) :
    (l₁ ++ l₂).getLast? = l₂.getLast? := by
  rw [List.getLast?_append]
  rw [List.getLast?_eq_getLast l₂ h]
  rfl

lemma dropLast_append_of_ne_nil {α : Type} (l₁ l₂ : List α) (h : l₂ ≠ []) :
    (l₁ ++ l₂).dropLast = l₁ ++ l₂.dropLast := by
  rw [List.dropLast_append]
  have he : l₂.isEmpty = false := by
    cases l₂ with
    | nil => exact absurd rfl h
    | cons a as => rfl
  rw [he]
  rfl

lemma mem_of_mem_dropLast {α : Type} (l : List α) (x : α) (h : x ∈ l.dropLast) :
    x ∈ l :=
  (List.dropLast_sublist l).subset h

lemma mem_of_getLast?_eq_some {α : Type} (l : List α) (x : α)
    (h : l.getLast? = some x) : x ∈ l := by
  cases l with
  | nil => simp at h
  | cons a as =>
    rw [List.getLast?_eq_getLast (a :: as) (by simp)] at h
    exact Option.some.inj h ▸ List.getLast_mem (by simp)

lemma joinSegs_getLast_ne_slash (xs : List (List Char)) (hx : xs ≠ [])
    (hgood : ∀ s ∈ xs, s ≠ [] ∧ '/' ∉ s) :
    (joinSegs xs).getLast? ≠ some '/' := by
  induction xs with
  | nil => exact absurd rfl hx
  | cons s rest ih =>
    cases rest with
    | nil =>
      have hs := hgood s (List.mem_cons_self s [])
      show s.getLast? ≠ some '/'
      intro hc
      have : '/' ∈ s := by
        cases s with
        | nil => simp at hc
        | cons c cs =>
          have := List.getLast?_eq_getLast (c :: cs) (by simp)
          rw [this] at hc
          have hmem := List.getLast_mem (by simp : c :: cs ≠ [])
          rw [Option.some.injEq] at hc
          exact hc ▸ hmem
      exact hs.2 this
    | cons s2 r2 =>
      rw [joinSegs_cons_of_ne_nil s _ (by simp)]
      have hj : joinSegs (s2 :: r2) ≠ [] :=
        joinSegs_ne_nil _ (by simp) (fun t ht => (hgood t (List.mem_cons_of_mem s ht)).1)
      rw [getLast?_append_of_ne_nil s ('/' :: joinSegs (s2 :: r2)) (by simp)]
      have : ('/' :: joinSegs (s2 :: r2)).getLast? = (joinSegs (s2 :: r2)).getLast? := by
        have := getLast?_append_of_ne_nil ['/'] (joinSegs (s2 :: r2)) hj
        simpa using this
      rw [this]
      exact ih (by simp) (fun t ht => hgood t (List.mem_cons_of_mem s ht))

lemma joinSegs_no_nul (xs : List (List Char)) (h : ∀ s ∈ xs, nulChar ∉ s) :
    nulChar ∉ joinSegs xs := by
  induction xs with
  | nil => simp [joinSegs]
  | cons s rest ih =>
    cases rest with
    | nil => exact h s (List.mem_cons_self s [])
    | cons s2 r2 =>
      rw [joinSegs_cons_of_ne_nil s _ (by simp)]
      intro hmem
      rcases List.mem_append.mp hmem with hm | hm
      · exact h s (List.mem_cons_self s _) hm
      · rcases List.mem_cons.mp hm with hm2 | hm2
        · exact absurd hm2.symm (by decide)
        · exact ih (fun t ht => h t (List.mem_cons_of_mem s ht)) hm2

lemma splitSlash_joinSegs (xs : List (List Char)) (hx : xs ≠ [])
    (hg : ∀ s ∈ xs, '/' ∉ s) : splitSlash (joinSegs xs) = xs := by
  induction xs with
  | nil => exact absurd rfl hx
  | cons s rest ih =>
    cases rest with
    | nil => exact splitSlash_of_no_slash s (hg s (List.mem_cons_self s []))
    | cons s2 r2 =>
      rw [joinSegs_cons_of_ne_nil s _ (by simp), splitSlash_append,
        splitSlash_of_no_slash s (hg s (List.mem_cons_self s _)),
        ih (by simp) (fun t ht => hg t (List.mem_cons_of_mem s ht))]
      rfl

/-! ## Helper lemmas: the normalization fold -/

lemma normStep_good (acc : List (List Char)) (s : List Char)
    (hacc : ∀ t ∈ acc, t ≠ [] ∧ '/' ∉ t) (hs : '/' ∉ s) :
    ∀ t ∈ normStep acc s, t ≠ [] ∧ '/' ∉ t := by
  rw [normStep]
  by_cases h1 : s = ['.', '.'] ∧ acc ≠ [] ∧ acc.getLast? ≠ some ['.', '.']
  · rw [if_pos h1]
    exact fun t ht => hacc t (mem_of_mem_dropLast acc t ht)
  · rw [if_neg h1]
    by_cases h2 : s ≠ ['.'] ∧ s ≠ []
    · rw [if_pos h2]
      intro t ht
      rcases List.mem_append.mp ht with hm | hm
      · exact hacc t hm
      · rcases List.mem_singleton.mp hm
        exact ⟨h2.2, hs⟩
    · rw [if_neg h2]
      exact hacc

lemma foldl_normStep_good (xs : List (List Char)) :
    ∀ acc, (∀ t ∈ acc, t ≠ [] ∧ '/' ∉ t) → (∀ s ∈ xs, '/' ∉ s) →
    ∀ t ∈ List.foldl normStep acc xs, t ≠ [] ∧ '/' ∉ t := by
  induction xs with
  | nil => exact fun acc hacc _ => hacc
  | cons s rest ih =>
    intro acc hacc hxs
    rw [List.foldl_cons]
    exact ih (normStep acc s)
      (normStep_good acc s hacc (hxs s (List.mem_cons_self s rest)))
      (fun t ht => hxs t (List.mem_cons_of_mem s ht))

lemma normSegs_good (cs : List Char) :
    ∀ t ∈ normSegs (splitSlash cs), t ≠ [] ∧ '/' ∉ t :=
  foldl_normStep_good (splitSlash cs) [] (by simp) (splitSlash_no_slash cs)

lemma foldl_normStep_fixed (xs : List (List Char)) :
    ∀ acc, (∀ s ∈ xs, s ≠ [] ∧ s ≠ ['.'] ∧ s ≠ ['.', '.']) →
    List.foldl normStep acc xs = acc ++ xs := by
  induction xs with
  | nil => intro acc _; simp
  | cons s rest ih =>
    intro acc hxs
    have hs := hxs s (List.mem_cons_self s rest)
    rw [List.foldl_cons]
    have hstep : normStep acc s = acc ++ [s] := by
      rw [normStep, if_neg (fun h => hs.2.2 h.1), if_pos ⟨hs.2.1, hs.1⟩]
    rw [hstep, ih (acc ++ [s]) (fun t ht => hxs t (List.mem_cons_of_mem s ht))]
    simp

lemma foldl_normStep_shift (xs : List (List Char)) :
    ∀ acc, (∀ t ∈ acc, t ≠ ['.', '.']) → staysSegs acc xs = true →
    (∀ ws, List.foldl normStep (ws ++ acc) xs = ws ++ List.foldl normStep acc xs)
    ∧ (∀ t ∈ List.foldl normStep acc xs, t ≠ ['.', '.']) := by
  induction xs with
  | nil => exact fun acc hacc _ => ⟨fun ws => rfl, hacc⟩
  | cons s rest ih =>
    intro acc hacc hst
    by_cases hc : s = ['.', '.'] ∧ acc = []
    · rw [staysSegs, if_pos hc] at hst
      exact absurd hst (by simp)
    · rw [staysSegs, if_neg hc] at hst
      by_cases hdd : s = ['.', '.']
      · -- a ".." pops: the accumulator is nonempty and never ends in ".."
        have hne : acc ≠ [] := fun h => hc ⟨hdd, h⟩
        have hlast : acc.getLast? ≠ some ['.', '.'] := by
          intro h
          exact hacc _ (mem_of_getLast?_eq_some acc _ h) rfl
        have hstep : normStep acc s = acc.dropLast := by
          rw [normStep, if_pos ⟨hdd, hne, hlast⟩]
        have hnodd : ∀ t ∈ acc.dropLast, t ≠ ['.', '.'] :=
          fun t ht => hacc t (mem_of_mem_dropLast acc t ht)
        rw [hstep] at hst
        obtain ⟨ihshift, ihnodd⟩ := ih acc.dropLast hnodd hst
        constructor
        · intro ws
          have hstepws : normStep (ws ++ acc) s = ws ++ acc.dropLast := by
            rw [normStep, if_pos ⟨hdd, by simp [hne],
              by rw [getLast?_append_of_ne_nil ws acc hne]; exact hlast⟩]
            exact dropLast_append_of_ne_nil ws acc hne
          rw [List.foldl_cons, hstepws, List.foldl_cons, hstep, ihshift]
        · rw [List.foldl_cons, hstep]
          exact ihnodd
      · -- not a "..": the step appends or skips, identically under any prefix
        by_cases h2 : s ≠ ['.'] ∧ s ≠ []
        · have hstep : normStep acc s = acc ++ [s] := by
            rw [normStep, if_neg (fun h => hdd h.1), if_pos h2]
          have hnodd : ∀ t ∈ acc ++ [s], t ≠ ['.', '.'] := by
            intro t ht
            rcases List.mem_append.mp ht with hm | hm
            · exact hacc t hm
            · rcases List.mem_singleton.mp hm
              exact hdd
          rw [hstep] at hst
          obtain ⟨ihshift, ihnodd⟩ := ih (acc ++ [s]) hnodd hst
          constructor
          · intro ws
            have hstepws : normStep (ws ++ acc) s = (ws ++ acc) ++ [s] := by
              rw [normStep, if_neg (fun h => hdd h.1), if_pos h2]
            rw [List.foldl_cons, hstepws, List.foldl_cons, hstep,
              List.append_assoc, ihshift]
          · rw [List.foldl_cons, hstep]
            exact ihnodd
        · have hstep : normStep acc s = acc := by
            rw [normStep, if_neg (fun h => hdd h.1), if_neg h2]
          rw [hstep] at hst
          obtain ⟨ihshift, ihnodd⟩ := ih acc hacc hst
          constructor
          · intro ws
            have hstepws : normStep (ws ++ acc) s = ws ++ acc := by
              rw [normStep, if_neg (fun h => hdd h.1), if_neg h2]
            rw [List.foldl_cons, hstepws, List.foldl_cons, hstep, ihshift]
          · rw [List.foldl_cons, hstep]
            exact ihnodd

/-! ## Helper lemmas: the matching loop of make_path_relative -/

lemma relLoop_strict_prefix (wd t : List Char)
    (hnul : ∀ c ∈ wd, c ≠ nulChar) (hlast : wd.getLast? ≠ some '/')
    (ht : t ≠ []) :
    ∀ n i lastEnd, wd.length - i = n + 1 → i < wd.length →
    relLoop (wd ++ '/' :: t) wd i lastEnd = t := by
  intro n
  induction n with
  | zero =>
    intro i lastEnd hn hi
    -- i is the index of the last character of wd
    have hi1 : i + 1 = wd.length := by omega
    have hwd_ne : wd ≠ [] := by
      intro h
      rw [h] at hi
      exact absurd hi (by simp)
    rw [relLoop]
    have hcond : i < (wd ++ '/' :: t).length ∧
        charAt (wd ++ '/' :: t) i = charAt wd i := by
      constructor
      · rw [List.length_append]
        omega
      · exact charAt_append_left wd ('/' :: t) i hi
    rw [dif_pos hcond]
    have hnul1 : charAt wd (i + 1) = nulChar :=
      charAt_of_length_le wd (i + 1) (by omega)
    rw [if_pos hnul1]
    have hlen : (wd ++ '/' :: t).length = wd.length + t.length + 1 := by
      rw [List.length_append, List.length_cons]
      omega
    have htpos : 0 < t.length := List.length_pos.mpr ht
    rw [if_neg (by omega : ¬(wd ++ '/' :: t).length = i + 1)]
    rw [if_neg (fun h => by omega : ¬((wd ++ '/' :: t).length = i + 2 ∧
      charAt (wd ++ '/' :: t) (i + 1) = '/'))]
    have hlastchar : charAt (wd ++ '/' :: t) i ≠ '/' := by
      rw [hcond.2]
      have := getLast?_eq_charAt wd hwd_ne
      intro heq
      apply hlast
      rw [this]
      congr 1
      rw [← heq]
      congr 1
      omega
    rw [if_neg hlastchar]
    have hslash : charAt (wd ++ '/' :: t) (i + 1) = '/' := by
      rw [hi1, ← Nat.add_zero wd.length, charAt_append_right wd ('/' :: t) 0]
      rfl
    rw [if_pos hslash]
    have hdrop : i + 2 = wd.length + 1 := by omega
    rw [hdrop, List.drop_append]
    rfl
  | succ n ihn =>
    intro i lastEnd hn hi
    have hi1 : i + 1 < wd.length := by omega
    rw [relLoop]
    have hcond : i < (wd ++ '/' :: t).length ∧
        charAt (wd ++ '/' :: t) i = charAt wd i := by
      constructor
      · rw [List.length_append]
        omega
      · exact charAt_append_left wd ('/' :: t) i hi
    rw [dif_pos hcond]
    have hnul1 : charAt wd (i + 1) ≠ nulChar :=
      charAt_ne_nul wd (i + 1) hnul hi1
    rw [if_neg hnul1]
    by_cases hsl : charAt (wd ++ '/' :: t) i = '/'
    · rw [if_pos hsl]
      exact ihn (i + 1) i (by omega) hi1
    · rw [if_neg hsl]
      exact ihn (i + 1) lastEnd (by omega) hi1

lemma hasPathPrefixChars_extend (cwd root t : List Char)
    (h : hasPathPrefixChars cwd root = true) (hlast : cwd.getLast? ≠ some '/') :
    hasPathPrefixChars (cwd ++ '/' :: t) root = true := by
  rw [hasPathPrefixChars] at h
  have hroot : root ≠ [] := by
    intro hr
    rw [if_pos hr] at h
    exact absurd h (by simp)
  rw [if_neg hroot] at h
  rw [hasPathPrefixChars, if_neg hroot]
  by_cases hpe : cwd = root
  · -- the working directory equals the project root
    subst hpe
    have hne : cwd ++ '/' :: t ≠ cwd := by
      intro he
      have := congrArg List.length he
      simp [List.length_append] at this
    rw [if_neg hne, if_pos hlast]
    show decide (List.take (cwd ++ ['/']).length (cwd ++ '/' :: t) = cwd ++ ['/']) = true
    rw [decide_eq_true_eq]
    have h2 : (cwd ++ ['/']).length = cwd.length + 1 := by simp
    rw [h2]
    have h3 : (cwd ++ '/' :: t).take (cwd.length + 1) = cwd ++ ('/' :: t).take 1 :=
      List.take_append 1
    rw [h3]
    rfl
  · rw [if_neg hpe] at h
    -- cwd extends the (slash-adjusted) root prefix
    by_cases hpl : root.getLast? ≠ some '/'
    · rw [if_pos hpl] at h
      have htake : cwd.take (root ++ ['/']).length = root ++ ['/'] :=
        of_decide_eq_true h
      have hlen : (root ++ ['/']).length ≤ cwd.length := by
        have := congrArg List.length htake
        rw [List.length_take] at this
        omega
      have hne : cwd ++ '/' :: t ≠ root := by
        intro he
        have := congrArg List.length he
        rw [List.length_append] at this
        simp only [List.length_append, List.length_singleton] at hlen
        simp at this
        omega
      rw [if_neg hne, if_pos hpl]
      show decide (List.take (root ++ ['/']).length (cwd ++ '/' :: t) = root ++ ['/']) = true
      rw [decide_eq_true_eq]
      have h3 : (cwd ++ '/' :: t).take (root ++ ['/']).length =
          cwd.take (root ++ ['/']).length :=
        List.take_append_of_le_length hlen
      rw [h3, htake]
    · rw [if_neg hpl] at h
      have htake : cwd.take root.length = root := of_decide_eq_true h
      have hlen : root.length ≤ cwd.length := by
        have := congrArg List.length htake
        rw [List.length_take] at this
        omega
      have hrpos : 0 < root.length := List.length_pos.mpr hroot
      have hne : cwd ++ '/' :: t ≠ root := by
        intro he
        have h1 := congrArg List.length he
        simp only [List.length_append, List.length_cons] at h1
        omega
      rw [if_neg hne, if_neg hpl]
      show decide (List.take root.length (cwd ++ '/' :: t) = root) = true
      rw [decide_eq_true_eq]
      have h3 : (cwd ++ '/' :: t).take root.length = cwd.take root.length :=
        List.take_append_of_le_length hlen
      rw [h3, htake]

lemma hasPathPrefix_empty_string (p : String) : hasPathPrefix p "" = false := by
  have hnil : ("" : String).data = [] := by decide
  rw [hasPathPrefix, hnil, hasPathPrefixChars, if_pos rfl]

/-! ## Claim theorems -/

/-- **C7**: `has_path_prefix` treats its second argument as segment-aligned:
for every path `p`, `has_path_prefix(p, "")` is false;
`has_path_prefix("/foo", "/foobar")` is false, while
`has_path_prefix("/foo/bar", "/foo")` is true. -/
theorem has_path_prefix_segment_aligned :
    (∀ p : String, hasPathPrefix p "" = false)
    ∧ hasPathPrefix "/foo" "/foobar" = false
    ∧ hasPathPrefix "/foo/bar" "/foo" = true :=
  ⟨hasPathPrefix_empty_string, by decide, by decide⟩

/-- **C10**: with an empty configured project root, `make_path_relative`
returns every input path unchanged (the empty prefix matches no path), so no
absolute path is ever rewritten to a relative one. -/
theorem make_path_relative_empty_root (path cwd : String) :
    make_path_relative path cwd "" = .ok path := by
  rw [make_path_relative,
    if_pos (Or.inr (Or.inr (Or.inr (hasPathPrefix_empty_string path))))]

/-- **C9**: a `BOOLVAR` environment entry `NAME=value` always matches the
`strncmp` guard, and the stored boolean is true iff `value` is nonempty; in
particular `RECC_FORCE_REMOTE=0` stores true and `RECC_FORCE_REMOTE=`
stores false. -/
theorem boolvar_true_iff_nonempty_value :
    (∀ name value : List Char,
      boolvarMatches name (name ++ '=' :: value) = true
      ∧ (boolvarValue name (name ++ '=' :: value) = true ↔ value ≠ []))
    ∧ boolvarMatches "RECC_FORCE_REMOTE".data "RECC_FORCE_REMOTE=0".data = true
    ∧ boolvarValue "RECC_FORCE_REMOTE".data "RECC_FORCE_REMOTE=0".data = true
    ∧ boolvarValue "RECC_FORCE_REMOTE".data "RECC_FORCE_REMOTE=".data = false := by
  refine ⟨fun name value => ⟨?_, ?_⟩, by decide, by decide, by decide⟩
  · rw [boolvarMatches, List.isPrefixOf_iff_prefix]
    exact ⟨value, by simp⟩
  · rw [boolvarValue, decide_eq_true_eq, List.length_append, List.length_cons]
    constructor
    · intro h hv
      rw [hv] at h
      simp at h
    · intro hv
      have : 0 < value.length := List.length_pos.mpr hv
      omega

/-- Witness for C9 at a concrete variable name and value. -/
theorem boolvar_true_iff_nonempty_value_witness :
    boolvarValue "RECC_VERBOSE".data ("RECC_VERBOSE".data ++ '=' :: "false".data) = true :=
  (boolvar_true_iff_nonempty_value.1 "RECC_VERBOSE".data "false".data).2.mpr (by decide)

/-- **C8**: when the poll loop of `read_operation` observes the SIGINT flag,
it issues `CancelOperation` exactly for a non-empty operation name and exits
with code 130 no matter what status the cancellation RPC returns; without
the flag, polling continues. -/
theorem sigint_cancellation_behavior (operationName : String) (cancelStatus : GStatus) :
    (read_operation_poll true operationName cancelStatus).exitCode = some 130
    ∧ ((read_operation_poll true operationName cancelStatus).cancelRequested =
        if operationName = "" then none else some operationName)
    ∧ read_operation_poll false operationName cancelStatus =
        { cancelRequested := none, cancelLog := none, exitCode := none } := by
  refine ⟨?_, ?_, rfl⟩
  · by_cases h : operationName = "" <;> simp [read_operation_poll, h]
  · by_cases h : operationName = "" <;> simp [read_operation_poll, h]

/-- **C2** (the code contradicts the claim): when the wrapped RPC returns
UNAUTHENTICATED on its first invocation, `grpc_retry` replays the call
without counting the attempt (two invocations, no sleep, success), but the
UNAUTHENTICATED branch only sets the `refreshed` flag: no call to
`GrpcContext::auth_refresh` — and hence no token refresh through the
AuthSession — ever happens. -/
theorem grpc_retry_unauth_replay_without_refresh :
    grpc_retry (fun i => if i = 0 then ⟨UNAUTHENTICATED, "token expired"⟩ else ⟨0, ""⟩) 3 100 =
      { invocations := 2, sleeps := [], authRefreshCalls := 0, outcome := .ok } := by
  rw [grpc_retry, grpcRetryGo, grpcRetryGo]
  decide

/-- **C4**: `fetch_from_action_cache` returns a cache miss (no error, no
result) exactly when `GetActionResult` returned NOT_FOUND; every other
non-OK status raises an error; an OK status decodes the proto through
`from_proto` and returns the ActionResult. -/
theorem fetch_from_action_cache_notfound_is_miss (ft : Digest → TreeP)
    (md : DirectoryP → Digest) (st : GStatus) (ar : ActionResultProto) :
    (fetch_from_action_cache ft md st ar = .ok none ↔ st.code = NOT_FOUND)
    ∧ (st.code ≠ 0 → st.code ≠ NOT_FOUND →
        fetch_from_action_cache ft md st ar =
          .error ("Action cache returned error " ++ st.msg))
    ∧ (st.code = 0 →
        fetch_from_action_cache ft md st ar = (from_proto ft md ar).map some) := by
  refine ⟨⟨?_, ?_⟩, ?_, ?_⟩
  · intro h
    by_cases h0 : st.code = 0
    · rw [fetch_from_action_cache, if_neg (not_not_intro h0)] at h
      cases hfp : from_proto ft md ar with
      | error e => rw [hfp] at h; exact absurd h (by simp [Except.map])
      | ok v => rw [hfp] at h; simp [Except.map] at h
    · by_cases h5 : st.code = NOT_FOUND
      · exact h5
      · rw [fetch_from_action_cache, if_pos h0, if_neg h5] at h
        exact absurd h (by simp)
  · intro h5
    have h0 : st.code ≠ 0 := by rw [h5]; decide
    rw [fetch_from_action_cache, if_pos h0, if_pos h5]
  · intro h0 h5
    rw [fetch_from_action_cache, if_pos h0, if_neg h5]
  · intro h0
    rw [fetch_from_action_cache, if_neg (not_not_intro h0)]

/-- Witness for C4: a NOT_FOUND status is a miss, a non-OK non-NOT_FOUND
status is an error. -/
theorem fetch_from_action_cache_notfound_is_miss_witness :
    fetch_from_action_cache (fun _ => ⟨⟨[], []⟩, []⟩) (fun _ => ⟨"", 0⟩)
      ⟨5, "nope"⟩ ⟨0, "", ⟨"", 0⟩, "", ⟨"", 0⟩, [], []⟩ = .ok none
    ∧ fetch_from_action_cache (fun _ => ⟨⟨[], []⟩, []⟩) (fun _ => ⟨"", 0⟩)
      ⟨13, "boom"⟩ ⟨0, "", ⟨"", 0⟩, "", ⟨"", 0⟩, [], []⟩ =
        .error ("Action cache returned error " ++ "boom") :=
  ⟨(fetch_from_action_cache_notfound_is_miss (fun _ => ⟨⟨[], []⟩, []⟩)
      (fun _ => ⟨"", 0⟩) ⟨5, "nope"⟩ ⟨0, "", ⟨"", 0⟩, "", ⟨"", 0⟩, [], []⟩).1.mpr rfl,
   (fetch_from_action_cache_notfound_is_miss (fun _ => ⟨⟨[], []⟩, []⟩)
      (fun _ => ⟨"", 0⟩) ⟨13, "boom"⟩ ⟨0, "", ⟨"", 0⟩, "", ⟨"", 0⟩, [], []⟩).2.1
      (by decide) (by decide)⟩

/-- **C3**: after the Execute stream closes, a final Operation that is not
done raises "Server closed stream before Operation finished"; for a done
Operation, `get_actionresult` raises an error when the Operation carries an
error, when its response does not unpack to an ExecuteResponse, and when the
unpacked ExecuteResponse has a non-OK status; otherwise it returns the
contained ActionResult. -/
theorem execute_action_operation_errors (ft : Digest → TreeP)
    (md : DirectoryP → Digest) (op : Operation) :
    (op.done = false →
      execute_action_tail ft md op =
        .error "Server closed stream before Operation finished")
    ∧ (op.done = true →
        (∀ st, op.result = .error st → isErr (get_actionresult op) = true)
        ∧ (unpackExecuteResponse op.responseAny = none →
            isErr (get_actionresult op) = true)
        ∧ (∀ er, op.result = .response (.executeResponse er) →
            (er.status.code ≠ 0 → isErr (get_actionresult op) = true)
            ∧ (er.status.code = 0 → get_actionresult op = .ok er.result))) := by
  constructor
  · intro h
    rw [execute_action_tail, if_pos h]
  · intro hd
    refine ⟨?_, ?_, ?_⟩
    · intro st hst
      by_cases hc : st.code = 0 <;>
        simp [get_actionresult, hd, Operation.hasError, hst, Operation.errorStatus,
          Operation.responseAny, ensure_ok, unpackExecuteResponse, isErr, hc,
          Except.bind]
    · intro hnone
      cases hr : op.result with
      | unset =>
        simp [get_actionresult, hd, Operation.hasError, hr, Operation.responseAny,
          unpackExecuteResponse, isErr, Except.bind]
      | error st =>
        by_cases hc : st.code = 0 <;>
          simp [get_actionresult, hd, Operation.hasError, hr, Operation.errorStatus,
            Operation.responseAny, ensure_ok, unpackExecuteResponse, isErr, hc,
            Except.bind]
      | response a =>
        simp only [Operation.responseAny, hr] at hnone
        simp [get_actionresult, hd, Operation.hasError, hr, Operation.responseAny,
          hnone, isErr, Except.bind]
    · intro er her
      constructor
      · intro hne
        simp [get_actionresult, hd, Operation.hasError, her, Operation.responseAny,
          ensure_ok, unpackExecuteResponse, isErr, hne, Except.bind]
      · intro he
        simp [get_actionresult, hd, Operation.hasError, her, Operation.responseAny,
          ensure_ok, unpackExecuteResponse, isErr, he, Except.bind]

/-- Witness for C3: a not-done Operation raises the stream-closed error, and
a done Operation with an OK ExecuteResponse yields its ActionResult. -/
theorem execute_action_operation_errors_witness :
    execute_action_tail (fun _ => ⟨⟨[], []⟩, []⟩) (fun _ => ⟨"", 0⟩)
      ⟨"op-1", false, .unset⟩ =
        .error "Server closed stream before Operation finished"
    ∧ get_actionresult
        ⟨"op-1", true, .response (.executeResponse
          ⟨⟨0, ""⟩, "done", ⟨0, "", ⟨"", 0⟩, "", ⟨"", 0⟩, [], []⟩⟩)⟩ =
        .ok ⟨0, "", ⟨"", 0⟩, "", ⟨"", 0⟩, [], []⟩ :=
  ⟨(execute_action_operation_errors (fun _ => ⟨⟨[], []⟩, []⟩) (fun _ => ⟨"", 0⟩)
      ⟨"op-1", false, .unset⟩).1 rfl,
   (((execute_action_operation_errors (fun _ => ⟨⟨[], []⟩, []⟩) (fun _ => ⟨"", 0⟩)
      ⟨"op-1", true, .response (.executeResponse
        ⟨⟨0, ""⟩, "done", ⟨0, "", ⟨"", 0⟩, "", ⟨"", 0⟩, [], []⟩⟩)⟩).2 rfl).2.2
      ⟨⟨0, ""⟩, "done", ⟨0, "", ⟨"", 0⟩, "", ⟨"", 0⟩, [], []⟩⟩ rfl).2 rfl⟩

lemma grpcRetryGo_all_bad (f : Nat → GStatus) (limit delay : Nat)
    (hbad : ∀ i, (f i).code ≠ 0 ∧ (f i).code ≠ UNAUTHENTICATED) :
    ∀ m nAttempts refreshed inv sleeps, nAttempts + m + 1 = limit + 1 →
    grpcRetryGo f limit delay nAttempts refreshed inv sleeps =
      { invocations := inv + m + 1,
        sleeps := sleeps ++ (List.range' nAttempts m).map (fun n => delay * 2 ^ n),
        authRefreshCalls := 0,
        outcome := .failed (retryErrorMessage limit (f (inv + m))) } := by
  intro m
  induction m with
  | zero =>
    intro nAttempts refreshed inv sleeps hm
    rw [grpcRetryGo, if_neg (hbad inv).1,
      dif_neg (fun h => (hbad inv).2 h.1),
      dif_neg (by omega : ¬nAttempts + 1 < limit + 1),
      if_neg (by omega : ¬nAttempts < limit)]
    simp
  | succ m ih =>
    intro nAttempts refreshed inv sleeps hm
    rw [grpcRetryGo, if_neg (hbad inv).1,
      dif_neg (fun h => (hbad inv).2 h.1),
      dif_pos (by omega : nAttempts + 1 < limit + 1),
      if_pos (by omega : nAttempts < limit),
      ih (nAttempts + 1) refreshed (inv + 1)
        (sleeps ++ [delay * 2 ^ nAttempts]) (by omega)]
    congr 1
    · omega
    · rw [List.range'_succ, List.map_cons, List.append_assoc]
      rfl
    · rw [show inv + 1 + m = inv + (m + 1) from by omega]

lemma grpcRetryGo_invocations_le (f : Nat → GStatus) (limit delay : Nat) :
    ∀ m nAttempts refreshed inv sleeps, nAttempts ≤ limit →
    2 * (limit - nAttempts) + (1 - refreshed.toNat) ≤ m →
    (grpcRetryGo f limit delay nAttempts refreshed inv sleeps).invocations ≤
      inv + (limit + 1 - nAttempts) + (1 - refreshed.toNat) := by
  intro m
  induction m with
  | zero =>
    intro nAttempts refreshed inv sleeps hna hm
    cases refreshed with
    | false => simp [Bool.toNat] at hm
    | true =>
      simp only [Bool.toNat_true] at hm ⊢
      have heq : nAttempts = limit := by omega
      rw [grpcRetryGo]
      by_cases h0 : (f inv).code = 0
      · rw [if_pos h0]
        simp only []
        omega
      · rw [if_neg h0,
          dif_neg (fun h => by exact absurd h.2 (by simp)),
          dif_neg (by omega : ¬nAttempts + 1 < limit + 1)]
        simp only []
        omega
  | succ m ih =>
    intro nAttempts refreshed inv sleeps hna hm
    rw [grpcRetryGo]
    by_cases h0 : (f inv).code = 0
    · rw [if_pos h0]
      simp only []
      omega
    · rw [if_neg h0]
      by_cases hu : (f inv).code = UNAUTHENTICATED ∧ refreshed = false
      · rw [dif_pos hu]
        rw [if_pos (by omega : nAttempts < limit + 1)]
        have hrec := ih nAttempts true (inv + 1) sleeps hna
          (by rw [hu.2] at hm; simp [Bool.toNat] at hm ⊢; omega)
        rw [hu.2]
        simp only [Bool.toNat_true, Bool.toNat_false] at hrec ⊢
        omega
      · rw [dif_neg hu]
        by_cases hn : nAttempts + 1 < limit + 1
        · rw [dif_pos hn]
          have hrec := ih (nAttempts + 1) refreshed (inv + 1)
            (if nAttempts < limit then sleeps ++ [delay * 2 ^ nAttempts] else sleeps)
            (by omega) (by omega)
          omega
        · rw [dif_neg hn]
          simp only []
          omega

/-- **C1** (amended): when every invocation fails with a non-OK,
non-UNAUTHENTICATED status, `grpc_retry` invokes the RPC exactly
RETRY_LIMIT + 1 times, sleeps RETRY_DELAY * 2^n ms between attempts n and
n+1, and throws an error carrying "<code>: <msg>" of the last status,
prefixed by "Retry limit exceeded. Last gRPC error was " exactly when
RETRY_LIMIT > 0; for every status sequence, the invocation count is at most
RETRY_LIMIT + 2. -/
theorem grpc_retry_exhaustion (f : Nat → GStatus) (limit delay : Nat)
    (hbad : ∀ i, (f i).code ≠ 0 ∧ (f i).code ≠ UNAUTHENTICATED) :
    grpc_retry f limit delay =
      { invocations := limit + 1,
        sleeps := (List.range limit).map (fun n => delay * 2 ^ n),
        authRefreshCalls := 0,
        outcome := .failed
          ((if 0 < limit then "Retry limit exceeded. Last gRPC error was " else "")
            ++ toString (f limit).code ++ ": " ++ (f limit).msg) }
    ∧ ∀ g : Nat → GStatus, (grpc_retry g limit delay).invocations ≤ limit + 2 := by
  constructor
  · rw [grpc_retry,
      grpcRetryGo_all_bad f limit delay hbad limit 0 false 0 [] (by omega)]
    congr 1
    · omega
    · rw [List.range_eq_range']
      simp
    · rw [show (0 : Nat) + limit = limit from by omega, retryErrorMessage]
  · intro g
    have h := grpcRetryGo_invocations_le g limit delay (2 * limit + 2) 0 false 0 []
      (by omega) (by simp only [Bool.toNat_false]; omega)
    rw [grpc_retry]
    simp only [Bool.toNat_false] at h
    omega

/-- Counterexample to C1 as stated: with RETRY_LIMIT = 0 the invocation
count is still RETRY_LIMIT + 1 = 1, but the raised error message is
"14: unavailable", not "Retry limit exceeded. Last gRPC error was
14: unavailable" — the prefix is only attached when RETRY_LIMIT > 0. -/
theorem grpc_retry_exhaustion_counterexample :
    (grpc_retry (fun _ => ⟨14, "unavailable"⟩) 0 100).invocations = 1
    ∧ (grpc_retry (fun _ => ⟨14, "unavailable"⟩) 0 100).outcome =
        .failed "14: unavailable"
    ∧ ("14: unavailable" : String) ≠
        "Retry limit exceeded. Last gRPC error was 14: unavailable" := by
  refine ⟨?_, ?_, by decide⟩ <;> (rw [grpc_retry, grpcRetryGo]; decide)

/-- Witness for C1 at RETRY_LIMIT = 2, RETRY_DELAY = 10 and a constant
UNAVAILABLE status: three invocations, sleeps of 10 ms and 20 ms, and the
prefixed error message. -/
theorem grpc_retry_exhaustion_witness :
    grpc_retry (fun _ => ⟨14, "unavailable"⟩) 2 10 =
      { invocations := 3, sleeps := [10, 20], authRefreshCalls := 0,
        outcome := .failed
          "Retry limit exceeded. Last gRPC error was 14: unavailable" } := by
  have hbad : ∀ i : Nat, ((fun _ => (⟨14, "unavailable"⟩ : GStatus)) i).code ≠ 0 ∧
      ((fun _ => (⟨14, "unavailable"⟩ : GStatus)) i).code ≠ UNAUTHENTICATED :=
    fun i => ⟨by show (14 : Nat) ≠ 0; decide, by show (14 : Nat) ≠ UNAUTHENTICATED; decide⟩
  have h := (grpc_retry_exhaustion (fun _ => ⟨14, "unavailable"⟩) 2 10 hbad).1
  rw [h]
  decide

/-- **C5**: `normalize_path` resolves "." and ".." textually and collapses
repeated slashes; the result begins with '/' iff the input does; the result
never ends with '/' except for the root "/"; and the two concrete examples
of the spec hold. -/
theorem normalize_path_slash_shape :
    (∀ p : String,
      ((normalize_path p).data.head? = some '/' ↔ p.data.head? = some '/'))
    ∧ (∀ p : String,
      (normalize_path p).data.getLast? = some '/' → normalize_path p = "/")
    ∧ normalize_path "/a/./b/../c//d/" = "/a/c/d"
    ∧ normalize_path "a/../../b" = "../b" := by
  refine ⟨fun p => ?_, fun p => ?_, by decide, by decide⟩
  · have hgood := normSegs_good p.data
    show (normalizePathChars p.data).head? = some '/' ↔ p.data.head? = some '/'
    rw [normalizePathChars]
    by_cases hg : charAt p.data 0 = '/'
    · rw [if_pos hg, List.singleton_append, List.head?_cons]
      constructor
      · intro _
        cases hp : p.data with
        | nil =>
          rw [hp] at hg
          exact absurd hg (by decide)
        | cons c cs =>
          rw [hp] at hg
          rw [charAt_cons_zero] at hg
          rw [List.head?_cons, hg]
      · intro _
        rfl
    · rw [if_neg hg, List.nil_append]
      constructor
      · intro h
        cases hq : normSegs (splitSlash p.data) with
        | nil =>
          rw [hq] at h
          simp [joinSegs] at h
        | cons s rest =>
          rw [hq] at h
          exact absurd h
            (joinSegs_head_ne_slash (s :: rest) (by simp) (fun t ht => hgood t (hq ▸ ht)))
      · intro h
        cases hp : p.data with
        | nil => rw [hp] at h; simp at h
        | cons c cs =>
          rw [hp] at h
          rw [List.head?_cons] at h
          have : c = '/' := Option.some.inj h
          rw [hp, charAt_cons_zero] at hg
          exact absurd this hg
  · intro h
    have hgood := normSegs_good p.data
    have hdata : (normalize_path p).data = normalizePathChars p.data := rfl
    rw [hdata, normalizePathChars] at h
    by_cases hq : normSegs (splitSlash p.data) = []
    · by_cases hg : charAt p.data 0 = '/'
      · have : normalize_path p = ⟨['/']⟩ := by
          rw [normalize_path, normalizePathChars, if_pos hg, hq]
          rfl
        rw [this]
      · rw [if_neg hg, List.nil_append, hq] at h
        simp [joinSegs] at h
    · have hjne : joinSegs (normSegs (splitSlash p.data)) ≠ [] :=
        joinSegs_ne_nil _ hq (fun t ht => (hgood t ht).1)
      have hlast := joinSegs_getLast_ne_slash _ hq hgood
      by_cases hg : charAt p.data 0 = '/'
      · rw [if_pos hg, List.singleton_append] at h
        have hcons : ('/' :: joinSegs (normSegs (splitSlash p.data))).getLast? =
            (joinSegs (normSegs (splitSlash p.data))).getLast? := by
          have := getLast?_append_of_ne_nil ['/'] _ hjne
          simpa using this
        rw [hcons] at h
        exact absurd h hlast
      · rw [if_neg hg, List.nil_append] at h
        exact absurd h hlast

/-- Witness for C5: the root path itself is the one normalized result that
ends in '/'. -/
theorem normalize_path_slash_shape_witness :
    (normalize_path "/").data.getLast? = some '/' ∧ normalize_path "/" = "/" :=
  ⟨by decide, normalize_path_slash_shape.2.1 "/" (by decide)⟩

/-- **C6**: for a relative path `p` that stays inside the working directory
(no upward escape, not the directory itself, no trailing slash), and a
normalized absolute working directory `/ws₁/…/wsₖ` lying under the
configured project root, `make_relative (make_absolute p cwd) cwd`
equals `normalize p`. -/
theorem make_relative_absolute_roundtrip
    (ws : List (List Char)) (p root : String)
    (hws : ws ≠ []) (hseg : ∀ s ∈ ws, CwdSeg s)
    (hroot : hasPathPrefix ⟨'/' :: joinSegs ws⟩ root = true)
    (hrel : charAt p.data 0 ≠ '/')
    (hslash : p.data.getLast? ≠ some '/')
    (hstays : staysInside p = true)
    (hne : normalize_path p ≠ "") :
    make_path_relative (make_path_absolute p ⟨'/' :: joinSegs ws⟩)
      ⟨'/' :: joinSegs ws⟩ root = .ok (normalize_path p) := by
  have hwsGood : ∀ s ∈ ws, s ≠ [] ∧ '/' ∉ s := fun s hs => (hseg s hs).1
  have hJW_ne : joinSegs ws ≠ [] :=
    joinSegs_ne_nil ws hws (fun s hs => (hwsGood s hs).1)
  have hJW_last : (joinSegs ws).getLast? ≠ some '/' :=
    joinSegs_getLast_ne_slash ws hws hwsGood
  have hcwd_last_eq : ('/' :: joinSegs ws).getLast? = (joinSegs ws).getLast? := by
    have := getLast?_append_of_ne_nil ['/'] (joinSegs ws) hJW_ne
    simpa using this
  have hcwd_last : ('/' :: joinSegs ws).getLast? ≠ some '/' := by
    rw [hcwd_last_eq]
    exact hJW_last
  have hqgood := normSegs_good p.data
  have hqs_ne : normSegs (splitSlash p.data) ≠ [] := by
    intro hq
    apply hne
    show (⟨normalizePathChars p.data⟩ : String) = ""
    rw [normalizePathChars, if_neg hrel, hq]
    decide
  have hJQ_ne : joinSegs (normSegs (splitSlash p.data)) ≠ [] :=
    joinSegs_ne_nil _ hqs_ne (fun t ht => (hqgood t ht).1)
  have hpne : p.data ≠ [] := by
    intro hp
    apply hqs_ne
    rw [hp]
    decide
  -- Step A: the absolute path is cwd ++ "/" ++ (the normalized p)
  have hdata : ((⟨'/' :: joinSegs ws⟩ : String) ++ "/" ++ p).data =
      ('/' :: joinSegs ws) ++ '/' :: p.data := by
    rw [String.data_append, String.data_append,
      show ("/" : String).data = ['/'] by decide]
    simp
  have hsplitcwd : splitSlash ('/' :: joinSegs ws) = [] :: ws := by
    rw [splitSlash, if_pos rfl,
      splitSlash_joinSegs ws hws (fun s hs => (hwsGood s hs).2)]
  have hshift := (foldl_normStep_shift (splitSlash p.data) [] (by simp) hstays).1 ws
  have hfoldws : List.foldl normStep ws (splitSlash p.data) =
      ws ++ List.foldl normStep [] (splitSlash p.data) := by
    rw [← List.append_nil ws]
    rw [hshift]
    simp
  have hnorm : normalize_path ((⟨'/' :: joinSegs ws⟩ : String) ++ "/" ++ p) =
      ⟨'/' :: (joinSegs ws ++ '/' :: joinSegs (normSegs (splitSlash p.data)))⟩ := by
    rw [normalize_path]
    congr 1
    rw [normalizePathChars, hdata]
    have hg : charAt (('/' :: joinSegs ws) ++ '/' :: p.data) 0 = '/' := by
      rw [charAt_append_left _ _ 0 (by simp)]
      rfl
    rw [if_pos hg, splitSlash_append, hsplitcwd]
    show ['/'] ++ joinSegs (normSegs (([] :: ws) ++ splitSlash p.data)) = _
    rw [normSegs]
    rw [show ([] :: ws) ++ splitSlash p.data = [] :: (ws ++ splitSlash p.data) from rfl]
    rw [List.foldl_cons]
    rw [show normStep [] [] = [] by decide]
    rw [List.foldl_append]
    rw [foldl_normStep_fixed ws [] (fun s hs =>
      ⟨(hwsGood s hs).1, (hseg s hs).2.2.1, (hseg s hs).2.2.2⟩)]
    rw [List.nil_append, hfoldws]
    rw [show List.foldl normStep [] (splitSlash p.data) =
      normSegs (splitSlash p.data) from rfl]
    rw [joinSegs_append ws _ hws hqs_ne]
    rw [List.singleton_append]
  have habs : make_path_absolute p ⟨'/' :: joinSegs ws⟩ =
      ⟨'/' :: (joinSegs ws ++ '/' :: joinSegs (normSegs (splitSlash p.data)))⟩ := by
    rw [make_path_absolute,
      if_neg (fun h => Or.elim h (fun h1 => hpne h1) (fun h2 => hrel h2)),
      if_neg (fun hc => hslash hc.1), hnorm]
  -- Step B: make_path_relative strips exactly the working directory
  have hpp : hasPathPrefix
      ⟨'/' :: (joinSegs ws ++ '/' :: joinSegs (normSegs (splitSlash p.data)))⟩
      root = true := by
    show hasPathPrefixChars
      (('/' :: joinSegs ws) ++ '/' :: joinSegs (normSegs (splitSlash p.data)))
      root.data = true
    exact hasPathPrefixChars_extend ('/' :: joinSegs ws) root.data _ hroot hcwd_last
  rw [habs, make_path_relative]
  rw [if_neg (by
    intro h
    rcases h with h | h | h | h
    · exact absurd h (by simp)
    · exact absurd h (by simp)
    · exact h rfl
    · rw [hpp] at h
      exact absurd h (by simp))]
  rw [if_neg (show ¬charAt ('/' :: joinSegs ws) 0 ≠ '/' from fun hcc => hcc rfl)]
  congr 1
  show (⟨relLoop (('/' :: joinSegs ws) ++ '/' ::
      joinSegs (normSegs (splitSlash p.data))) ('/' :: joinSegs ws) 0 0⟩ : String) =
    normalize_path p
  have hnul : ∀ c ∈ '/' :: joinSegs ws, c ≠ nulChar := by
    intro c hc
    rcases List.mem_cons.mp hc with h | h
    · rw [h]
      decide
    · intro he
      exact joinSegs_no_nul ws (fun s hs => (hseg s hs).2.1) (he ▸ h)
  have hlen : ('/' :: joinSegs ws).length - 0 =
      (('/' :: joinSegs ws).length - 1) + 1 := by
    simp
  have hloop := relLoop_strict_prefix ('/' :: joinSegs ws)
    (joinSegs (normSegs (splitSlash p.data))) hnul hcwd_last hJQ_ne
    (('/' :: joinSegs ws).length - 1) 0 0 hlen (by simp)
  rw [hloop, normalize_path]
  congr 1
  rw [normalizePathChars, if_neg hrel, List.nil_append]

/-- Witness for C6: `p = "x"`, working directory `/proj/src`, project root
`/proj`. -/
theorem make_relative_absolute_roundtrip_witness :
    make_path_relative
      (make_path_absolute "x" ⟨'/' :: joinSegs [['p', 'r', 'o', 'j'], ['s', 'r', 'c']]⟩)
      ⟨'/' :: joinSegs [['p', 'r', 'o', 'j'], ['s', 'r', 'c']]⟩ "/proj" =
      .ok (normalize_path "x") :=
  make_relative_absolute_roundtrip [['p', 'r', 'o', 'j'], ['s', 'r', 'c']] "x" "/proj"
    (by decide) (by decide) (by decide) (by decide) (by decide) (by decide) (by decide)
